import Mathlib

/-!
Verification of the particle-filter localization core
(src/particle_filter.cpp) against its natural-language specification.

The C++ code is shallowly embedded over the real numbers: every float
becomes a real, every random draw (normal noise sample, discrete
resampling index) becomes an explicit input supplied by the caller, and
the mutation of the particle population becomes explicit state passing
(each operation returns the new population).
-/

open Real

/-- A particle: pose hypothesis (x, y, theta) plus weight.
Mirrors `struct Particle` in the source. -/
structure Particle where
  x : ℝ
  y : ℝ
  theta : ℝ
  weight : ℝ

instance : Inhabited Particle := ⟨⟨0, 0, 0, 0⟩⟩

/-- Truncation toward zero, the rounding used by C `fmod`. -/
noncomputable def truncR (x : ℝ) : ℤ :=
  if 0 ≤ x then ⌊x⌋ else ⌈x⌉

/-- Real-number model of C `fmod a b = a - b * trunc (a / b)`. -/
noncomputable def fmodR (a b : ℝ) : ℝ :=
  a - b * truncR (a / b)

/-- The heading wrap used after every rotation in the source:
`theta = fmod(theta, 2*pi); if (theta < 0) theta += 2*pi;`. -/
noncomputable def wrapAngle (t : ℝ) : ℝ :=
  if fmodR t (2 * Real.pi) < 0 then fmodR t (2 * Real.pi) + 2 * Real.pi
  else fmodR t (2 * Real.pi)

/-- `ParticleFilter::moveParticle` (lines 81-90): the two normal noise
draws of the source are passed explicitly as `dn` (distance noise) and
`rn` (rotation noise). Position is advanced along the OLD heading, then
the heading is updated and wrapped into [0, 2*pi). -/
noncomputable def moveParticle (p : Particle) (dist rot dn rn : ℝ) : Particle :=
  let noisyDistance := dist + dn
  let newX := p.x + noisyDistance * Real.cos p.theta
  let newY := p.y + noisyDistance * Real.sin p.theta
  let noisyRot := rot + rn
  { x := newX, y := newY, theta := wrapAngle (p.theta + noisyRot), weight := p.weight }

/-- `ParticleFilter::updateMotion` (lines 92-98): every particle moves
with its own independent noise draws, indexed here by list position. -/
noncomputable def updateMotion (ps : List Particle) (dist rot : ℝ) (dn rn : ℕ → ℝ) :
    List Particle :=
  ps.mapIdx (fun i p => moveParticle p dist rot (dn i) (rn i))

/-- The per-particle likelihood product of `ParticleFilter::calculateWeights`
(inner loop, lines 107-116): over each landmark index, multiply the
Gaussian density of the residual between the measured range and the
range expected from the particle's position. Measurement `i` is read by
index, exactly as `measurements[i]` in the source (out-of-range reads,
undefined behavior in C++, are modeled as the default 0). -/
noncomputable def particleWeight (sense : ℝ) (ms : List ℝ) (lms : List (ℝ × ℝ))
    (p : Particle) : ℝ :=
  let gaussNorm := 1 / Real.sqrt (2 * Real.pi * sense * sense)
  let denom := 2 * sense * sense
  (List.range lms.length).foldl (fun w i =>
    let lm := lms.getD i (0, 0)
    let expected := Real.sqrt ((lm.1 - p.x) * (lm.1 - p.x) + (lm.2 - p.y) * (lm.2 - p.y))
    let diff := ms.getD i 0 - expected
    w * (gaussNorm * Real.exp (-(diff * diff) / denom))) 1

/-- First loop of `calculateWeights`: every particle's weight is
overwritten with its likelihood product. -/
noncomputable def scoreParticles (sense : ℝ) (ps : List Particle) (ms : List ℝ)
    (lms : List (ℝ × ℝ)) : List Particle :=
  ps.map (fun p => { p with weight := particleWeight sense ms lms p })

/-- The accumulated `total_weight` of `calculateWeights`. -/
noncomputable def totalMass (sense : ℝ) (ps : List Particle) (ms : List ℝ)
    (lms : List (ℝ × ℝ)) : ℝ :=
  ((scoreParticles sense ps ms lms).map Particle.weight).sum

/-- `ParticleFilter::calculateWeights` (lines 100-126): score every
particle, then normalize by the total mass only when it is positive. -/
noncomputable def calculateWeights (sense : ℝ) (ps : List Particle) (ms : List ℝ)
    (lms : List (ℝ × ℝ)) : List Particle :=
  let scored := scoreParticles sense ps ms lms
  let total := totalMass sense ps ms lms
  if 0 < total then scored.map (fun p => { p with weight := p.weight / total })
  else scored

/-- `ParticleFilter::resampleParticles` (lines 128-143): the random
indices produced by the discrete distribution are supplied explicitly
by `draw`; the new population copies `particles_[draw i]` for each
position `i < N`. -/
noncomputable def resampleParticles (ps : List Particle) (draw : ℕ → ℕ) : List Particle :=
  (List.range ps.length).map (fun i => ps.getD (draw i) default)

/-- The `total_weight_squared` accumulator of `updateAndEstimate`. -/
noncomputable def sumSqWeights (ps : List Particle) : ℝ :=
  (ps.map (fun p => p.weight * p.weight)).sum

/-- The effective sample size of `updateAndEstimate` (line 175):
`Neff = 1 / (total_weight_squared + 1e-6)`. -/
noncomputable def neffOf (ps : List Particle) : ℝ :=
  1 / (sumSqWeights ps + 1e-6)

/-- The degeneracy check and conditional resampling of
`updateAndEstimate` (lines 171-177). Note the source compares `Neff`
with `particles_.size() / 2`, an INTEGER division of the population
size, converted to floating point only after the division. -/
noncomputable def resampleStep (ps : List Particle) (draw : ℕ → ℕ) : List Particle :=
  if neffOf ps < ((ps.length / 2 : ℕ) : ℝ) then resampleParticles ps draw else ps

/-- Four-quadrant arctangent, the `atan2` of the source, via the
complex argument (range (-pi, pi]). -/
noncomputable def atan2 (y x : ℝ) : ℝ :=
  Complex.arg ((x : ℂ) + (y : ℂ) * Complex.I)

/-- `ParticleFilter::estimateState` (lines 145-160): arithmetic mean of
x and y, circular mean of heading via atan2 of averaged sine and
cosine. The source divides by `particles_.size()` with no emptiness
check. -/
noncomputable def estimateState (ps : List Particle) : ℝ × ℝ × ℝ :=
  let n : ℝ := ps.length
  ((ps.map Particle.x).sum / n,
   (ps.map Particle.y).sum / n,
   atan2 ((ps.map (fun p => Real.sin p.theta)).sum / n)
         ((ps.map (fun p => Real.cos p.theta)).sum / n))

/-- The population state after the motion and weighting phases of
`updateAndEstimate`. -/
noncomputable def weightsAfter (sense dist rot : ℝ) (ps : List Particle) (dn rn : ℕ → ℝ)
    (ms : List ℝ) (lms : List (ℝ × ℝ)) : List Particle :=
  calculateWeights sense (updateMotion ps dist rot dn rn) ms lms

/-- `ParticleFilter::updateAndEstimate` (lines 162-183): move, weight,
conditionally resample, estimate. Returns the estimate together with
the final population (the mutated `particles_` state). -/
noncomputable def updateAndEstimate (sense dist rot : ℝ) (ps : List Particle)
    (dn rn : ℕ → ℝ) (ms : List ℝ) (lms : List (ℝ × ℝ)) (draw : ℕ → ℕ) :
    (ℝ × ℝ × ℝ) × List Particle :=
  let weighted := weightsAfter sense dist rot ps dn rn ms lms
  let final := resampleStep weighted draw
  (estimateState final, final)

/-- `ParticleFilter::initializeParticles` (lines 68-79): the loop
`for (int i = 0; i < num_particles; ++i)` appends `num_particles`
fresh particles (when positive; none otherwise) to the EXISTING
population; the three normal draws for particle `i` are supplied as
`draws i`, and each new weight is `1 / num_particles`. -/
noncomputable def initializeParticles (pop : List Particle) (rx ry rt : ℝ) (num : ℤ)
    (draws : ℕ → ℝ × ℝ × ℝ) : List Particle :=
  pop ++ (List.range num.toNat).map (fun i =>
    { x := (draws i).1, y := (draws i).2.1, theta := (draws i).2.2,
      weight := 1 / (num : ℝ) })

/-- The robot state: pose plus the noise standard deviations its
constructor actually stores. -/
structure Robot where
  x : ℝ
  y : ℝ
  theta : ℝ
  sigma_pos : ℝ
  sigma_rot : ℝ
  sigma_sense : ℝ

/-- `Robot::Robot` (line 30): the member initializer list sets
`sigma_pos_(0.1f)`, `sigma_rot_(0.05f)`, `sigma_sense_(0.05f)` — the
constructor parameters `sp`, `sr`, `ss` are never read. -/
def mkRobot (sp sr ss rx ry rt : ℝ) : Robot :=
  { x := rx, y := ry, theta := rt,
    sigma_pos := 0.1, sigma_rot := 0.05, sigma_sense := 0.05 }

/-- The filter configuration stored by `ParticleFilter::ParticleFilter`. -/
structure ParticleFilter where
  sigma_pos : ℝ
  sigma_rot : ℝ
  sigma_sense : ℝ

/-- `ParticleFilter::ParticleFilter` (line 66): stores the supplied
standard deviations unconditionally — no validation of any kind. -/
def mkParticleFilter (sp sr ss : ℝ) : ParticleFilter :=
  { sigma_pos := sp, sigma_rot := sr, sigma_sense := ss }

/-! ## Initialization and constructor claims -/

/-- Claim C9: the Robot constructor ignores its sigma parameters — the
stored noise standard deviations are always the constants 0.1, 0.05 and
0.05, whatever the caller supplies. -/
theorem mkRobot_ignores_sigma_args (sp sr ss sp2 sr2 ss2 rx ry rt : ℝ) :
    mkRobot sp sr ss rx ry rt = mkRobot sp2 sr2 ss2 rx ry rt ∧
    (mkRobot sp sr ss rx ry rt).sigma_pos = 0.1 ∧
    (mkRobot sp sr ss rx ry rt).sigma_rot = 0.05 ∧
    (mkRobot sp sr ss rx ry rt).sigma_sense = 0.05 :=
  ⟨rfl, rfl, rfl, rfl⟩

/-- Claim C10: initializeParticles appends to the existing population:
starting from M particles, initializing with count N > 0 leaves M + N
particles, and the first M entries are the old population unchanged. -/
theorem initializeParticles_appends (pop : List Particle) (rx ry rt : ℝ) (num : ℤ)
    (draws : ℕ → ℝ × ℝ × ℝ) (h : 0 < num) :
    (initializeParticles pop rx ry rt num draws).length = pop.length + num.toNat ∧
    ((num.toNat : ℤ) = num) ∧
    (initializeParticles pop rx ry rt num draws).take pop.length = pop := by
  refine ⟨?_, Int.toNat_of_nonneg h.le, ?_⟩
  · simp [initializeParticles]
  · simpa [initializeParticles] using List.take_left pop _

/-- Witness for C10 at a concrete input: a population of 1 particle,
initialized with count 2, grows to 3 particles. -/
theorem initializeParticles_appends_witness :
    (initializeParticles [⟨0, 0, 0, 1⟩] 0 0 0 2 (fun _ => (0, 0, 0))).length = 3 := by
  have h := (initializeParticles_appends [⟨0, 0, 0, 1⟩] 0 0 0 2 (fun _ => (0, 0, 0))
    (by norm_num)).1
  simpa using h

/-- Claim C5 (amended): initialization performs no validation at all:
for every count N that is zero or negative, the loop body never runs
and the population is returned unchanged — no error is raised. -/
theorem initializeParticles_nonpositive_noop (pop : List Particle) (rx ry rt : ℝ)
    (num : ℤ) (draws : ℕ → ℝ × ℝ × ℝ) (h : num ≤ 0) :
    initializeParticles pop rx ry rt num draws = pop := by
  simp [initializeParticles, Int.toNat_eq_zero.mpr h]

/-- Witness for the amended C5: a concrete initialization with count -3
returns normally with the population unchanged. -/
theorem initializeParticles_nonpositive_noop_witness :
    initializeParticles [⟨1, 2, 3, 4⟩] 5 5 0 (-3) (fun _ => (0, 0, 0)) = [⟨1, 2, 3, 4⟩] :=
  initializeParticles_nonpositive_noop _ 5 5 0 (-3) _ (by norm_num)

/-- Counterexample to C5 as stated: initializing with the negative
count -3 does NOT fail - it returns a (here empty) population; and the
filter constructor stores a negative standard deviation unchecked. -/
theorem initializeParticles_no_validation_cex :
    initializeParticles [] 1 1 0 (-3) (fun _ => (0, 0, 0)) = ([] : List Particle) ∧
    (mkParticleFilter (-1) (-1) (-1)).sigma_pos = -1 := by
  exact ⟨rfl, rfl⟩

/-! ## Estimation claims -/

/-- Claim C6 (amended): estimateState performs no emptiness check: on a
population of length 0 it divides the zero sums by zero, which in the
real-valued model (where x / 0 = 0 and arg 0 = 0) yields (0, 0, 0)
rather than an EmptyPopulation failure. -/
theorem estimateState_empty (ps : List Particle) (h : ps.length = 0) :
    estimateState ps = (0, 0, 0) := by
  rw [List.length_eq_zero] at h
  subst h
  simp [estimateState, atan2]

/-- Witness for the amended C6 at the concrete empty population. -/
theorem estimateState_empty_witness :
    estimateState ([] : List Particle) = (0, 0, 0) :=
  estimateState_empty [] rfl

/-- Counterexample to C6 as stated: on the empty population,
estimateState returns the value (0, 0, 0) computed through the
divisions by zero — it does not fail. -/
theorem estimateState_empty_cex :
    ([] : List Particle).length = 0 ∧ estimateState ([] : List Particle) = (0, 0, 0) := by
  refine ⟨rfl, ?_⟩
  simp [estimateState, atan2]

/-! ## Prediction claims -/

/-- The wrap of the source always lands in [0, 2*pi): fmod truncates
toward zero, leaving a value in (-2*pi, 2*pi), and the conditional
`+ 2*pi` lifts the negative case. -/
theorem wrapAngle_mem_Ico (t : ℝ) : wrapAngle t ∈ Set.Ico 0 (2 * Real.pi) := by
  have hb : (0 : ℝ) < 2 * Real.pi := by positivity
  have ht : 2 * Real.pi * (t / (2 * Real.pi)) = t := by
    field_simp
  rcases le_or_lt 0 (t / (2 * Real.pi)) with h | h
  · have f1 : (↑⌊t / (2 * Real.pi)⌋ : ℝ) ≤ t / (2 * Real.pi) := Int.floor_le _
    have f2 : t / (2 * Real.pi) < ↑⌊t / (2 * Real.pi)⌋ + 1 := Int.lt_floor_add_one _
    have g1 : 2 * Real.pi * ↑⌊t / (2 * Real.pi)⌋ ≤ 2 * Real.pi * (t / (2 * Real.pi)) :=
      mul_le_mul_of_nonneg_left f1 hb.le
    have g2 : 2 * Real.pi * (t / (2 * Real.pi)) <
        2 * Real.pi * (↑⌊t / (2 * Real.pi)⌋ + 1) :=
      mul_lt_mul_of_pos_left f2 hb
    have hm : fmodR t (2 * Real.pi) = t - 2 * Real.pi * ↑⌊t / (2 * Real.pi)⌋ := by
      rw [fmodR, truncR, if_pos h]
    have h0 : 0 ≤ fmodR t (2 * Real.pi) := by rw [hm]; nlinarith
    have h1 : fmodR t (2 * Real.pi) < 2 * Real.pi := by rw [hm]; nlinarith
    rw [wrapAngle, if_neg (not_lt.mpr h0)]
    exact ⟨h0, h1⟩
  · have f1 : t / (2 * Real.pi) ≤ (↑⌈t / (2 * Real.pi)⌉ : ℝ) := Int.le_ceil _
    have f2 : (↑⌈t / (2 * Real.pi)⌉ : ℝ) < t / (2 * Real.pi) + 1 := Int.ceil_lt_add_one _
    have g1 : 2 * Real.pi * (t / (2 * Real.pi)) ≤ 2 * Real.pi * ↑⌈t / (2 * Real.pi)⌉ :=
      mul_le_mul_of_nonneg_left f1 hb.le
    have g2 : 2 * Real.pi * ↑⌈t / (2 * Real.pi)⌉ <
        2 * Real.pi * (t / (2 * Real.pi) + 1) :=
      mul_lt_mul_of_pos_left f2 hb
    have hm : fmodR t (2 * Real.pi) = t - 2 * Real.pi * ↑⌈t / (2 * Real.pi)⌉ := by
      rw [fmodR, truncR, if_neg (not_le.mpr h)]
    have h0 : fmodR t (2 * Real.pi) ≤ 0 := by rw [hm]; nlinarith
    have h1 : -(2 * Real.pi) < fmodR t (2 * Real.pi) := by rw [hm]; nlinarith
    rw [wrapAngle]
    by_cases hc : fmodR t (2 * Real.pi) < 0
    · rw [if_pos hc]
      constructor <;> linarith
    · rw [if_neg hc]
      have hz : fmodR t (2 * Real.pi) = 0 := le_antisymm h0 (not_lt.mp hc)
      rw [hz]
      exact ⟨le_refl 0, hb⟩

/-- Wrapping zero gives zero. -/
theorem wrapAngle_zero : wrapAngle 0 = 0 := by
  simp [wrapAngle, fmodR, truncR]

/-- Wrapping pi/2 gives pi/2. -/
theorem wrapAngle_pi_div_two : wrapAngle (Real.pi / 2) = Real.pi / 2 := by
  have hpi := Real.pi_pos
  have hne : Real.pi ≠ 0 := Real.pi_ne_zero
  have h4 : Real.pi / 2 / (2 * Real.pi) = (4 : ℝ)⁻¹ := by
    field_simp
    ring
  have hf : ⌊((4 : ℝ)⁻¹)⌋ = 0 := by
    rw [Int.floor_eq_zero_iff]
    constructor <;> norm_num
  have hm : fmodR (Real.pi / 2) (2 * Real.pi) = Real.pi / 2 := by
    rw [fmodR, truncR, h4, if_pos (by norm_num), hf]
    push_cast
    ring
  rw [wrapAngle, hm, if_neg (by linarith)]

/-- Claim C8: with zero noise draws, moving a particle at (0, 0, 0)
with control (distance 1, rotation 0) gives exactly (1, 0, 0), and with
control (distance 0, rotation pi/2) gives exactly (0, 0, pi/2);
moreover every predicted heading lies in [0, 2*pi). -/
theorem moveParticle_deterministic :
    (∀ w : ℝ, moveParticle ⟨0, 0, 0, w⟩ 1 0 0 0 = ⟨1, 0, 0, w⟩) ∧
    (∀ w : ℝ, moveParticle ⟨0, 0, 0, w⟩ 0 (Real.pi / 2) 0 0 = ⟨0, 0, Real.pi / 2, w⟩) ∧
    (∀ (p : Particle) (dist rot dn rn : ℝ),
      (moveParticle p dist rot dn rn).theta ∈ Set.Ico 0 (2 * Real.pi)) := by
  refine ⟨fun w => ?_, fun w => ?_, fun p dist rot dn rn => ?_⟩
  · simp [moveParticle]
    exact wrapAngle_zero
  · simp [moveParticle]
    exact wrapAngle_pi_div_two
  · exact wrapAngle_mem_Ico _

/-- Mean of a constant list: the sum over n identical values divided by
n gives the value back. -/
theorem replicate_mean (n : ℕ) (hn : 0 < n) (p : Particle) (f : Particle → ℝ) :
    ((List.replicate n p).map f).sum / (n : ℝ) = f p := by
  have hne : (n : ℝ) ≠ 0 := Nat.cast_ne_zero.mpr hn.ne'
  rw [List.map_replicate, List.sum_replicate, nsmul_eq_mul]
  exact mul_div_cancel_left₀ _ hne

/-- The circular mean reduces on a single heading to the (-pi, pi]
representative computed by atan2. -/
theorem atan2_sin_cos (t : ℝ) (ht : t ∈ Set.Ioc (-Real.pi) Real.pi) :
    atan2 (Real.sin t) (Real.cos t) = t := by
  rw [atan2, Complex.ofReal_cos, Complex.ofReal_sin]
  exact Complex.arg_cos_add_sin_mul_I ht

/-- Claim C3 (amended): on a non-empty population of n identical poses
(x0, y0, t0), estimateState returns exactly (x0, y0, t0) whenever t0
lies in [0, pi]; for t0 in (pi, 2*pi) the atan2 of the source returns
the (-pi, pi] representative t0 - 2*pi instead of t0. -/
theorem estimateState_identical (n : ℕ) (x0 y0 t0 w : ℝ) (hn : 0 < n)
    (ht : t0 ∈ Set.Icc 0 Real.pi) :
    estimateState (List.replicate n ⟨x0, y0, t0, w⟩) = (x0, y0, t0) := by
  have hpi := Real.pi_pos
  rw [estimateState]
  simp only [List.length_replicate]
  rw [replicate_mean n hn _ Particle.x, replicate_mean n hn _ Particle.y,
    replicate_mean n hn _ (fun p => Real.sin p.theta),
    replicate_mean n hn _ (fun p => Real.cos p.theta)]
  rw [atan2_sin_cos t0 ⟨by linarith [ht.1], ht.2⟩]

/-- Witness for the amended C3: one particle at pose (2, 3, 0) is
estimated exactly as (2, 3, 0). -/
theorem estimateState_identical_witness :
    estimateState (List.replicate 1 ⟨2, 3, 0, 1⟩) = (2, 3, 0) :=
  estimateState_identical 1 2 3 0 1 one_pos ⟨le_refl 0, Real.pi_pos.le⟩

/-- Counterexample to C3 as stated: for the in-range heading
t0 = 3*pi/2 (which lies in [0, 2*pi)), a population of one particle at
(0, 0, 3*pi/2) is estimated with heading atan2(-1, 0) = -pi/2, not
3*pi/2. -/
theorem estimateState_identical_cex :
    estimateState (List.replicate 1 ⟨0, 0, 3 * Real.pi / 2, 1⟩) ≠ (0, 0, 3 * Real.pi / 2) := by
  have hpi := Real.pi_pos
  have hsin : Real.sin (3 * Real.pi / 2) = -1 := by
    rw [show 3 * Real.pi / 2 = Real.pi / 2 + Real.pi by ring, Real.sin_add_pi,
      Real.sin_pi_div_two]
  have hcos : Real.cos (3 * Real.pi / 2) = 0 := by
    rw [show 3 * Real.pi / 2 = Real.pi / 2 + Real.pi by ring, Real.cos_add_pi,
      Real.cos_pi_div_two, neg_zero]
  have harg : atan2 (-1) 0 = -(Real.pi / 2) := by
    rw [atan2]
    rw [show ((0 : ℝ) : ℂ) + ((-1 : ℝ) : ℂ) * Complex.I = -Complex.I by push_cast; ring]
    exact Complex.arg_neg_I
  rw [estimateState]
  simp only [List.length_replicate]
  rw [replicate_mean 1 one_pos _ Particle.x, replicate_mean 1 one_pos _ Particle.y,
    replicate_mean 1 one_pos _ (fun p => Real.sin p.theta),
    replicate_mean 1 one_pos _ (fun p => Real.cos p.theta)]
  simp only [hsin, hcos]
  rw [harg]
  intro hcontra
  rw [Prod.mk.injEq, Prod.mk.injEq] at hcontra
  have h3 : -(Real.pi / 2) = 3 * Real.pi / 2 := hcontra.2.2
  linarith

/-! ## Population-size invariants -/

/-- Weighting never changes the population size: both branches are maps. -/
theorem calculateWeights_length (sense : ℝ) (ps : List Particle) (ms : List ℝ)
    (lms : List (ℝ × ℝ)) :
    (calculateWeights sense ps ms lms).length = ps.length := by
  simp only [calculateWeights]
  split <;> simp [scoreParticles]

/-- The motion update never changes the population size. -/
theorem updateMotion_length (ps : List Particle) (dist rot : ℝ) (dn rn : ℕ → ℝ) :
    (updateMotion ps dist rot dn rn).length = ps.length := by
  simp [updateMotion]

/-- The conditional resample never changes the population size. -/
theorem resampleStep_length (ps : List Particle) (draw : ℕ → ℕ) :
    (resampleStep ps draw).length = ps.length := by
  rw [resampleStep]
  split <;> simp [resampleParticles]

/-- The move-and-weight phase never changes the population size. -/
theorem weightsAfter_length (sense dist rot : ℝ) (ps : List Particle) (dn rn : ℕ → ℝ)
    (ms : List ℝ) (lms : List (ℝ × ℝ)) :
    (weightsAfter sense dist rot ps dn rn ms lms).length = ps.length := by
  rw [weightsAfter, calculateWeights_length, updateMotion_length]

/-- Claim C7: resampling with in-range draws returns exactly N
particles, each of which is a copy of some input particle; and every
filter operation (motion update, weighting, the composed step)
preserves the population size. -/
theorem resample_preserves_population (ps : List Particle) (draw : ℕ → ℕ)
    (h : ∀ i, draw i < ps.length) :
    (resampleParticles ps draw).length = ps.length ∧
    (∀ q ∈ resampleParticles ps draw, q ∈ ps) ∧
    (∀ dist rot dn rn, (updateMotion ps dist rot dn rn).length = ps.length) ∧
    (∀ sense ms lms, (calculateWeights sense ps ms lms).length = ps.length) ∧
    (∀ sense dist rot dn rn ms lms,
      ((updateAndEstimate sense dist rot ps dn rn ms lms draw).2).length = ps.length) := by
  refine ⟨by simp [resampleParticles], ?_, fun dist rot dn rn => updateMotion_length _ _ _ _ _,
    fun sense ms lms => calculateWeights_length _ _ _ _, fun sense dist rot dn rn ms lms => ?_⟩
  · intro q hq
    simp only [resampleParticles, List.mem_map, List.mem_range] at hq
    obtain ⟨i, _, rfl⟩ := hq
    rw [List.getD_eq_getElem ps default (h i)]
    exact List.getElem_mem _
  · show (resampleStep (weightsAfter sense dist rot ps dn rn ms lms) draw).length = ps.length
    rw [resampleStep_length, weightsAfter_length]

/-- Witness for C7: a concrete one-particle population keeps size 1
under resampling with the constant in-range draw 0. -/
theorem resample_preserves_population_witness :
    (resampleParticles [⟨0, 0, 0, 1⟩] (fun _ => 0)).length = 1 :=
  (resample_preserves_population [⟨0, 0, 0, 1⟩] (fun _ => 0) (fun _ => Nat.one_pos)).1

/-! ## Weighting claims -/

/-- The weights of the scored population are exactly the per-particle
likelihood products. -/
theorem scoreParticles_map_weight (sense : ℝ) (ps : List Particle) (ms : List ℝ)
    (lms : List (ℝ × ℝ)) :
    (scoreParticles sense ps ms lms).map Particle.weight
      = ps.map (particleWeight sense ms lms) := by
  simp [scoreParticles, List.map_map, Function.comp]

/-- Dividing every entry of a list by a constant divides the sum. -/
theorem sum_map_div (l : List ℝ) (c : ℝ) :
    (l.map (fun r => r / c)).sum = l.sum / c := by
  induction l with
  | nil => simp
  | cons a t ih => simp [ih, add_div]

/-- Claim C2: after calculateWeights, if the total likelihood mass is
positive then every weight is its likelihood divided by the total and
the weights sum to exactly 1; if the total mass is nonpositive the
weights are left as the raw likelihood products. -/
theorem calculateWeights_normalizes (sense : ℝ) (ps : List Particle) (ms : List ℝ)
    (lms : List (ℝ × ℝ)) :
    (0 < totalMass sense ps ms lms →
      (∀ i (hi : i < (calculateWeights sense ps ms lms).length),
        ((calculateWeights sense ps ms lms)[i]).weight
          = particleWeight sense ms lms (ps.getD i default) / totalMass sense ps ms lms) ∧
      ((calculateWeights sense ps ms lms).map Particle.weight).sum = 1) ∧
    (totalMass sense ps ms lms ≤ 0 →
      ∀ i (hi : i < (calculateWeights sense ps ms lms).length),
        ((calculateWeights sense ps ms lms)[i]).weight
          = particleWeight sense ms lms (ps.getD i default)) := by
  constructor
  · intro h
    have hcw : calculateWeights sense ps ms lms
        = (scoreParticles sense ps ms lms).map
            (fun p => { p with weight := p.weight / totalMass sense ps ms lms }) := by
      simp only [calculateWeights]
      rw [if_pos h]
    constructor
    · intro i hi
      have hlen : i < ps.length := by
        rw [calculateWeights_length] at hi
        exact hi
      simp only [hcw, List.getElem_map, scoreParticles]
      rw [List.getD_eq_getElem ps default hlen]
    · rw [hcw, List.map_map]
      have hcomp : (Particle.weight ∘ fun p : Particle =>
            { p with weight := p.weight / totalMass sense ps ms lms })
          = fun p : Particle => p.weight / totalMass sense ps ms lms := rfl
      rw [hcomp, show (fun p : Particle => p.weight / totalMass sense ps ms lms)
          = (fun r => r / totalMass sense ps ms lms) ∘ Particle.weight from rfl,
        ← List.map_map, sum_map_div,
        show ((scoreParticles sense ps ms lms).map Particle.weight).sum
          = totalMass sense ps ms lms from rfl]
      exact div_self (ne_of_gt h)
  · intro h i hi
    have hcw : calculateWeights sense ps ms lms = scoreParticles sense ps ms lms := by
      simp only [calculateWeights]
      rw [if_neg (not_lt.mpr h)]
    have hlen : i < ps.length := by
      rw [calculateWeights_length] at hi
      exact hi
    simp only [hcw, scoreParticles, List.getElem_map]
    rw [List.getD_eq_getElem ps default hlen]

/-- Witness for C2 at a concrete input: one particle, no landmarks, so
the likelihood product is the empty product 1, the total mass is 1, and
the normalized weights sum to 1. -/
theorem calculateWeights_normalizes_witness :
    ((calculateWeights 1 [⟨0, 0, 0, 0.5⟩] [] []).map Particle.weight).sum = 1 := by
  have htot : (0 : ℝ) < totalMass 1 [⟨0, 0, 0, 0.5⟩] [] [] := by
    simp [totalMass, scoreParticles, particleWeight]
  exact ((calculateWeights_normalizes 1 [⟨0, 0, 0, 0.5⟩] [] []).1 htot).2

/-- Reading inside the taken prefix is reading the original list. -/
theorem getD_take_of_lt (ms : List ℝ) (n i : ℕ) (h : i < n) :
    (ms.take n).getD i 0 = ms.getD i 0 := by
  rw [List.getD_eq_getElem?_getD, List.getD_eq_getElem?_getD, List.getElem?_take_of_lt h]

/-- The likelihood product only ever reads the first |landmarks|
measurements. -/
theorem particleWeight_take (sense : ℝ) (ms : List ℝ) (lms : List (ℝ × ℝ)) (p : Particle) :
    particleWeight sense (ms.take lms.length) lms p = particleWeight sense ms lms p := by
  simp only [particleWeight]
  apply List.foldl_ext
  intro a b hb
  rw [getD_take_of_lt _ _ _ (List.mem_range.mp hb)]

/-- Claim C4 (amended): calculateWeights performs no length check at
all: weighting with any measurement vector behaves exactly like
weighting with its first |landmarks| entries — surplus measurements
are silently ignored and no error is raised. -/
theorem calculateWeights_ignores_extra (sense : ℝ) (ps : List Particle) (ms : List ℝ)
    (lms : List (ℝ × ℝ)) :
    calculateWeights sense ps ms lms = calculateWeights sense ps (ms.take lms.length) lms := by
  have hscore : scoreParticles sense ps (ms.take lms.length) lms
      = scoreParticles sense ps ms lms := by
    simp only [scoreParticles]
    apply List.map_congr_left
    intro p _
    rw [particleWeight_take]
  have htot : totalMass sense ps (ms.take lms.length) lms = totalMass sense ps ms lms := by
    simp only [totalMass, hscore]
  simp only [calculateWeights, hscore, htot]

/-- Counterexample to C4 as stated: weighting one particle with 2
measurements against 1 landmark (mismatched lengths) raises nothing
and rewrites the particle weight from 0.25 to the normalized value 1. -/
theorem calculateWeights_mismatch_cex :
    ([(1 : ℝ), 2].length ≠ [((0 : ℝ), (0 : ℝ))].length) ∧
    (calculateWeights 1 [⟨0, 0, 0, 0.25⟩] [1, 2] [(0, 0)]).map Particle.weight = [1] := by
  have hr : List.range [((0 : ℝ), (0 : ℝ))].length = [0] := rfl
  have hw : 0 < particleWeight 1 [1, 2] [(0, 0)] ⟨0, 0, 0, 0.25⟩ := by
    simp only [particleWeight, hr, List.foldl_cons, List.foldl_nil, List.getD_cons_zero]
    positivity
  have htot : totalMass 1 [⟨0, 0, 0, 0.25⟩] [1, 2] [(0, 0)]
      = particleWeight 1 [1, 2] [(0, 0)] ⟨0, 0, 0, 0.25⟩ := by
    simp [totalMass, scoreParticles]
  refine ⟨by simp, ?_⟩
  simp only [calculateWeights]
  rw [if_pos (htot ▸ hw)]
  simp only [scoreParticles, List.map_cons, List.map_nil]
  rw [htot, div_self (ne_of_gt hw)]

/-! ## Degeneracy detection and resampling decision -/

/-- Claim C1 (amended): after the weighting pass inside
updateAndEstimate, the population is resampled exactly when
Neff < float(N / 2) where N / 2 is the INTEGER division of the
population size by two (so for odd N the threshold is (N-1)/2, not
N/2); otherwise the post-weighting population is returned unchanged. -/
theorem updateAndEstimate_resample_threshold (sense dist rot : ℝ) (ps : List Particle)
    (dn rn : ℕ → ℝ) (ms : List ℝ) (lms : List (ℝ × ℝ)) (draw : ℕ → ℕ) :
    (neffOf (weightsAfter sense dist rot ps dn rn ms lms)
        < (((weightsAfter sense dist rot ps dn rn ms lms).length / 2 : ℕ) : ℝ) →
      (updateAndEstimate sense dist rot ps dn rn ms lms draw).2
        = resampleParticles (weightsAfter sense dist rot ps dn rn ms lms) draw) ∧
    ((((weightsAfter sense dist rot ps dn rn ms lms).length / 2 : ℕ) : ℝ)
        ≤ neffOf (weightsAfter sense dist rot ps dn rn ms lms) →
      (updateAndEstimate sense dist rot ps dn rn ms lms draw).2
        = weightsAfter sense dist rot ps dn rn ms lms) := by
  have hsnd : (updateAndEstimate sense dist rot ps dn rn ms lms draw).2
      = resampleStep (weightsAfter sense dist rot ps dn rn ms lms) draw := rfl
  constructor
  · intro h
    rw [hsnd, resampleStep, if_pos h]
  · intro h
    rw [hsnd, resampleStep, if_neg (not_lt.mpr h)]

/-- Witness for the amended C1: on the empty population Neff is 1e6,
at least the integer threshold 0, so the population is unchanged. -/
theorem updateAndEstimate_resample_threshold_witness :
    (updateAndEstimate 1 0 0 [] (fun _ => 0) (fun _ => 0) [] [] (fun _ => 0)).2
      = weightsAfter 1 0 0 [] (fun _ => 0) (fun _ => 0) [] [] := by
  have hE : weightsAfter 1 0 0 [] (fun _ => 0) (fun _ => 0) [] [] = [] := by
    simp [weightsAfter, calculateWeights, scoreParticles, totalMass, updateMotion]
  refine (updateAndEstimate_resample_threshold 1 0 0 [] (fun _ => 0) (fun _ => 0)
    [] [] (fun _ => 0)).2 ?_
  rw [hE]
  norm_num [neffOf, sumSqWeights]

/-- A legitimate post-weighting population of 3 particles with
normalized weights (0.9, 0.05, 0.05). -/
noncomputable def cexPop : List Particle :=
  [⟨0, 0, 0, 0.9⟩, ⟨1, 0, 0, 0.05⟩, ⟨2, 0, 0, 0.05⟩]

/-- Counterexample to C1 as stated: for this normalized weight vector,
Neff is about 1.227, strictly below N/2 = 1.5, so the claim demands a
resample; but the code compares against the integer division 3/2 = 1
and leaves the population unchanged, even though resampling (here with
all draws 0) would have changed it. -/
theorem resample_threshold_cex :
    ((cexPop.map Particle.weight).sum = 1) ∧
    neffOf cexPop < (cexPop.length : ℝ) / 2 ∧
    resampleStep cexPop (fun _ => 0) = cexPop ∧
    resampleParticles cexPop (fun _ => 0) ≠ cexPop := by
  refine ⟨?_, ?_, ?_, ?_⟩
  · norm_num [cexPop]
  · norm_num [neffOf, sumSqWeights, cexPop]
  · rw [resampleStep, if_neg]
    norm_num [neffOf, sumSqWeights, cexPop]
  · intro hcontra
    have hx := congrArg (fun l : List Particle => (l.getD 1 default).x) hcontra
    norm_num [cexPop, resampleParticles] at hx
